import Mathlib

/-!
Shallow embedding of the miniz-compressor parallel block engine
(src/utilitypar.hpp, src/minizparallel.cpp).

Byte buffers are `List Nat`; `size_t` arithmetic that can wrap is made
explicit with `% 2^64`.  The external codec (miniz `compress`/`uncompress`,
declared an external collaborator in the spec, §6) is a parameter `Codec`
carrying the standard zlib contract: a successful compression decompresses
back to the original bytes, and `uncompress` never writes more than the
given capacity.  Out-of-bounds buffer accesses (undefined behaviour in the
C++ source) are modelled as `none`/failure.
-/

/-- `size_t` subtraction: `(a - b) mod 2^64`, as computed by C++ on
unsigned 64-bit operands (src/utilitypar.hpp line 138 and line 235). -/
def usub64 (a b : Nat) : Nat := (a + (2 ^ 64 - b % 2 ^ 64)) % 2 ^ 64

/-- Block descriptor, mirroring `struct DataBlock` (src/utilitypar.hpp
lines 13-17). -/
structure DataBlock where
  originalSize : Nat
  compressedSize : Nat
  blockIndex : Nat
deriving DecidableEq

/-- The external codec collaborator (spec §6): `comp` abstracts
`compressBlock` (wrapping miniz `compress`, lines 28-36), `decomp`
abstracts `decompressBlock` (wrapping miniz `uncompress`, lines 47-55,
second argument = output capacity).  `round_trip` and `decomp_len` are the
zlib contract this adapter is assumed to satisfy. -/
structure Codec where
  comp : List Nat → Option (List Nat)
  decomp : List Nat → Nat → Option (List Nat)
  round_trip : ∀ b c, comp b = some c → decomp c b.length = some b
  decomp_len : ∀ c cap out, decomp c cap = some out → out.length ≤ cap

/-- The archive produced by compression, in the exact order it is written
to the output file (lines 92-104 and 184-196): block count, then the
descriptor table, then the concatenated compressed payloads. -/
structure ArchiveFile where
  numBlocks : Nat
  blocks : List DataBlock
  payload : List Nat
deriving DecidableEq

/-- Block count chosen by `compressDataParallel` in the multi-block branch
(lines 112-115): `min(ceil(size/T), 2 * omp_get_max_threads())`. -/
def numBlocksFor (size T P : Nat) : Nat := min ((size + T - 1) / T) (2 * P)

/-- Per-block size (line 117): `ceil(size / numBlocks)`. -/
def blockSizeFor (size n : Nat) : Nat := (size + n - 1) / n

/-- Length of block `i` (line 138): `blockSize` for all but the last
block, and the `size_t` difference `size - i*blockSize` for the last. -/
def blockLen (size bs n i : Nat) : Nat :=
  if i < n - 1 then bs else usub64 size (i * bs)

/-- Reading `len` source bytes starting at `offset` (the range handed to
`compressBlock` at line 150).  A range extending past the buffer is an
out-of-bounds read, undefined behaviour in C++, modelled as `none`. -/
def extractBlock (data : List Nat) (offset len : Nat) : Option (List Nat) :=
  if offset + len ≤ data.length then some ((data.drop offset).take len) else none

/-- Body of one taskloop iteration (lines 133-167): slice the block, run
the codec, and record the descriptor `{originalSize, compressedSize,
blockIndex}` (lines 141-142 and 163) next to the compressed bytes. -/
def compressOneBlock (codec : Codec) (data : List Nat) (bs n i : Nat) :
    Option (DataBlock × List Nat) :=
  match extractBlock data (i * bs) (blockLen data.length bs n i) with
  | none => none
  | some s =>
      match codec.comp s with
      | none => none
      | some c => some (⟨blockLen data.length bs n i, c.length, i⟩, c)

/-- The taskloop over block indices.  The C++ loop lets sibling tasks run
to completion after a failure but only the shared `compressionSuccess`
flag survives, and on failure nothing is written (line 172), so the
overall result is exactly `none` whenever any iteration fails. -/
def compressBlocksGo (codec : Codec) (data : List Nat) (bs n : Nat) :
    List Nat → Option (List (DataBlock × List Nat))
  | [] => some []
  | i :: rest =>
      match compressOneBlock codec data bs n i with
      | none => none
      | some pc => (compressBlocksGo codec data bs n rest).map (pc :: ·)

/-- `compressDataParallel` (lines 69-207).  `openOk` models whether the
output `ofstream` opens (lines 86, 179): on open failure the function
returns `false` with nothing written.  The returned archive lists the
descriptors and payloads in ascending block-index order exactly as the
write loops at lines 184-196 emit them. -/
def compressData (codec : Codec) (openOk : Bool) (data : List Nat) (T P : Nat) :
    Option ArchiveFile :=
  if data.length ≤ T then
    match codec.comp data with
    | none => none
    | some c =>
        if openOk then some ⟨1, [⟨data.length, c.length, 0⟩], c⟩ else none
  else
    let n := numBlocksFor data.length T P
    let bs := blockSizeFor data.length n
    match compressBlocksGo codec data bs n (List.range n) with
    | none => none
    | some pcs =>
        if openOk then
          some ⟨n, pcs.map Prod.fst, (pcs.map Prod.snd).flatten⟩
        else none

/-- Writing `xs` into a mapped output buffer at `offset` (the in-place
write performed by `uncompress` into `decompressed_data + outputOffset`,
line 299). -/
def writeRange (buf : List Nat) (offset : Nat) (xs : List Nat) : List Nat :=
  buf.take offset ++ xs ++ buf.drop (offset + xs.length)

/-- Outcome of `decompressDataParallel`: success with the flushed output
file contents, or failure with the output file that was nevertheless
created, sized, flushed and left on disk (lines 313-317). -/
inductive DecompressResult where
  | ok (out : List Nat)
  | failedWithFile (out : List Nat)
deriving DecidableEq

/-- The decompression taskloop (lines 288-308), sequentialised in block
index order (the C++ tasks write disjoint ranges, so the final buffer is
order-independent).  `inOff`/`outOff` are the cumulative compressed and
original sizes of the preceding blocks, exactly how lines 274-279 and
291-294 compute the per-block input pointers and output offsets.  A failed
block only clears the shared flag; every remaining block still runs. -/
def decompBlocksLoop (codec : Codec) (payload : List Nat) :
    List DataBlock → Nat → Nat → List Nat → Bool → List Nat × Bool
  | [], _, _, buf, flag => (buf, flag)
  | b :: rest, inOff, outOff, buf, flag =>
      match codec.decomp ((payload.drop inOff).take b.compressedSize) b.originalSize with
      | some out =>
          decompBlocksLoop codec payload rest (inOff + b.compressedSize)
            (outOff + b.originalSize) (writeRange buf outOff out) flag
      | none =>
          decompBlocksLoop codec payload rest (inOff + b.compressedSize)
            (outOff + b.originalSize) buf false

/-- `totalSize` (lines 260-263): sum of `originalSize` over descriptors. -/
def sumOrig (blocks : List DataBlock) : Nat := (blocks.map (·.originalSize)).sum

/-- Input offset of block `i`: cumulative `compressedSize` of the blocks
before it (lines 274-279). -/
def cInOfs (blocks : List DataBlock) (i : Nat) : Nat :=
  ((blocks.take i).map (·.compressedSize)).sum

/-- Output offset of block `i`: cumulative `originalSize` of the blocks
before it (lines 291-294). -/
def cOutOfs (blocks : List DataBlock) (i : Nat) : Nat :=
  ((blocks.take i).map (·.originalSize)).sum

/-- Whether every block of the descriptor table decompresses, reading from
the same per-block slices as `decompBlocksLoop`. -/
def blocksOk (codec : Codec) (payload : List Nat) :
    List DataBlock → Nat → Bool
  | [], _ => true
  | b :: rest, inOff =>
      (codec.decomp ((payload.drop inOff).take b.compressedSize) b.originalSize).isSome
        && blocksOk codec payload rest (inOff + b.compressedSize)

/-- `decompressDataParallel` (lines 219-326) on an already-parsed archive.
Single-block archives (lines 225-248) decompress straight into a file
sized `originalSize`; multi-block archives (lines 249-317) decompress into
a file sized `totalSize`.  The mapped output file starts zero-filled
(a fresh `ftruncate`d mapping) and is flushed and left on disk even when
some block failed. -/
def decompressData (codec : Codec) (a : ArchiveFile) : DecompressResult :=
  if a.numBlocks = 1 then
    let b := a.blocks.headD ⟨0, 0, 0⟩
    match codec.decomp (a.payload.take b.compressedSize) b.originalSize with
    | some out => .ok (writeRange (List.replicate b.originalSize 0) 0 out)
    | none => .failedWithFile (List.replicate b.originalSize 0)
  else
    let bl := a.blocks.take a.numBlocks
    let r := decompBlocksLoop codec a.payload bl 0 0 (List.replicate (sumOrig bl) 0) true
    if r.2 then .ok r.1 else .failedWithFile r.1

/-- A concrete codec satisfying the zlib contract, used to witness the
theorems: compression is the identity, decompression checks capacity. -/
def idCodec : Codec where
  comp b := some b
  decomp c cap := if c.length ≤ cap then some c else none
  round_trip := by
    intro b c h
    cases h
    simp
  decomp_len := by
    intro c cap out h
    by_cases hc : c.length ≤ cap
    · simp [hc] at h
      cases h
      exact hc
    · simp [hc] at h

/-- A codec whose compression primitive always fails, used to witness the
failure-propagation theorem. -/
def failCodec : Codec where
  comp _ := none
  decomp _ _ := none
  round_trip := by intro b c h; cases h
  decomp_len := by intro c cap out h; cases h

/-- A directory tree entry as seen by `readdir`: a regular file with its
`stat` size, or a subdirectory with its entries in `readdir` order.  The
`.`/`..` markers (skipped by `isdot` at line 401) are not represented. -/
inductive FsEntry where
  | file (name : String) (size : Nat)
  | dir (name : String) (entries : List FsEntry)

/-- The body of `walkDirParallel` after the initial `chdir`/`opendir`
(src/utilitypar.hpp lines 384-448), parameterised by the external
eligibility filter `keep` (the negation of `discardIt`, declared in
`utility.hpp`, spec §6 `isEligible`) and by the File Dispatcher outcome
`work` (`doParallelWork`).  Arguments: the remaining `readdir` entries,
the `files` vector collected so far, and the process working directory as
a stack of names.  Returns (overall success, the names dispatched to the
File Dispatcher in dispatch order, the final working directory).

A subdirectory is recursed into after `chdir` (push `nm`); on its success
`chdir("..")` pops the current directory (lines 402-408); on its failure
the frame returns `false` immediately (line 410) — no `chdir("..")`, no
dispatch of the collected files.  After the loop, all collected files are
dispatched (the `omp parallel for` at lines 440-447 runs every iteration
and only aggregates the shared `success` flag). -/
def walkLoop (keep : String → Bool) (work : String → Nat → Bool) :
    List FsEntry → List (String × Nat) → List String →
    Bool × List String × List String
  | [], files, cwd =>
      ((files.all fun p => work p.1 p.2), files.map (·.1), cwd)
  | .file n s :: rest, files, cwd =>
      walkLoop keep work rest (if keep n then files ++ [(n, s)] else files) cwd
  | .dir nm sub :: rest, files, cwd =>
      let r := walkLoop keep work sub [] (cwd ++ [nm])
      if r.1 then
        let r2 := walkLoop keep work rest files r.2.2.dropLast
        (r2.1, r.2.1 ++ r2.2.1, r2.2.2)
      else
        (false, r.2.1, r.2.2)

/-- `walkDirParallel dname` on a directory with entries `es`, starting
from working directory `cwd`: `chdir(dname)` then process the entries
(lines 364-448). -/
def walkDirP (keep : String → Bool) (work : String → Nat → Bool)
    (nm : String) (es : List FsEntry) (cwd : List String) :
    Bool × List String × List String :=
  walkLoop keep work es [] (cwd ++ [nm])

/-- The `main` loop of src/minizparallel.cpp (lines 18-26) restricted to
directory inputs: each input is walked from whatever working directory the
previous walk left behind, and the per-input results are and-ed into the
overall exit status.  Returns (overall success, final working
directory). -/
def mainLoop (keep : String → Bool) (work : String → Nat → Bool) :
    List (String × List FsEntry) → List String → Bool × List String
  | [], cwd => (true, cwd)
  | (nm, es) :: rest, cwd =>
      let r := walkDirP keep work nm es cwd
      let r2 := mainLoop keep work rest r.2.2
      (r.1 && r2.1, r2.2)

/-- Dispatch traces of the directory entries in a prefix of a `readdir`
listing, at working directory `cwd`: file entries dispatch nothing while
the loop is still running, directory entries dispatch whatever their
recursive walk dispatched. -/
def dirTraces (keep : String → Bool) (work : String → Nat → Bool)
    (cwd : List String) : List FsEntry → List String
  | [] => []
  | .file _ _ :: rest => dirTraces keep work cwd rest
  | .dir nm sub :: rest =>
      (walkLoop keep work sub [] (cwd ++ [nm])).2.1 ++ dirTraces keep work cwd rest

/-- `std::string::substr(pos, count)` (C++ semantics): throws
`std::out_of_range` only when `pos > size()`; otherwise returns at most
`count` characters starting at `pos`, clamped to the end of the string. -/
def substrCpp (s : List Char) (pos count : Nat) : Option (List Char) :=
  if s.length < pos then none else some ((s.drop pos).take count)

/-- Output filename computed by `decompressDataParallel` (lines 235 and
267): `fname.substr(0, fname.size() - strlen(SUFFIX))`, where the
subtraction is on `size_t`.  `slen` is `strlen(SUFFIX)` (the suffix string
itself lives in the external `config.hpp`). -/
def decompOutName (slen : Nat) (fname : List Char) : Option (List Char) :=
  substrCpp fname 0 (usub64 fname.length slen)

/-- `size_t` subtraction agrees with mathematical subtraction whenever the
minuend fits in 64 bits and no borrow occurs. -/
theorem usub64_eq_sub (a b : Nat) (hb : b ≤ a) (ha : a < 2 ^ 64) :
    usub64 a b = a - b := by
  unfold usub64
  omega

/-- Ceiling division `(a + b - 1) / b` rounds up: multiplying back covers `a`. -/
theorem le_mul_ceilDiv (a b : Nat) (hb : 0 < b) : a ≤ b * ((a + b - 1) / b) := by
  have h1 := Nat.div_add_mod (a + b - 1) b
  have h2 : (a + b - 1) % b < b := Nat.mod_lt _ hb
  omega

/-- Ceiling division is tight: one fewer multiple of `b` falls short of `a`. -/
theorem pred_ceilDiv_mul_lt (a b : Nat) (hb : 0 < b) (ha : 0 < a) :
    ((a + b - 1) / b - 1) * b < a := by
  have h1 := Nat.div_add_mod (a + b - 1) b
  have h2 : (a + b - 1) % b < b := Nat.mod_lt _ hb
  have h3 : ((a + b - 1) / b - 1) * b = b * ((a + b - 1) / b) - b := by
    rw [Nat.sub_mul, one_mul, Nat.mul_comm]
  omega

/-- If `a ≤ n * t` then the ceiling of `a / n` is at most `t`. -/
theorem ceilDiv_le_of_le_mul (a t n : Nat) (hn : 0 < n) (h : a ≤ n * t) :
    (a + n - 1) / n ≤ t := by
  have h1 : (a + n - 1) / n < t + 1 := by
    rw [Nat.div_lt_iff_lt_mul hn, add_mul, one_mul]
    have h2 : t * n = n * t := Nat.mul_comm t n
    omega
  omega

/-- Claim C2 (block count invariant): an archive produced from an input of
size `S ≤ T` records `numBlocks = 1`; from an input of size `S > T` it
records `numBlocks = min(ceil(S/T), 2*P)` where `P` is the configured
parallelism (`omp_get_max_threads`) — exactly the quantity computed at
src/utilitypar.hpp lines 112-115. -/
theorem c2_block_count (codec : Codec) (openOk : Bool) (data : List Nat)
    (T P : Nat) (a : ArchiveFile)
    (hc : compressData codec openOk data T P = some a) :
    (data.length ≤ T → a.numBlocks = 1) ∧
    (T < data.length → a.numBlocks = min ((data.length + T - 1) / T) (2 * P)) := by
  simp only [compressData] at hc
  split at hc
  case isTrue h =>
    refine ⟨fun _ => ?_, fun h2 => absurd h (not_le.mpr h2)⟩
    split at hc
    · exact absurd hc (by simp)
    · split at hc
      · cases hc
        rfl
      · exact absurd hc (by simp)
  case isFalse h =>
    refine ⟨fun h1 => absurd h1 h, fun _ => ?_⟩
    split at hc
    · exact absurd hc (by simp)
    · split at hc
      · cases hc
        rfl
      · exact absurd hc (by simp)

/-- Witness for C2: a 3-byte buffer with threshold 1 and parallelism 1
compresses (with the identity codec) into an archive recording
`numBlocks = min(ceil(3/1), 2) = 2`. -/
theorem c2_block_count_witness :
    compressData idCodec true [1, 2, 3] 1 1
      = some ⟨2, [⟨2, 2, 0⟩, ⟨1, 1, 1⟩], [1, 2, 3]⟩ ∧
    (1 < ([1, 2, 3] : List Nat).length ∧
      (⟨2, [⟨2, 2, 0⟩, ⟨1, 1, 1⟩], [1, 2, 3]⟩ : ArchiveFile).numBlocks
        = min ((([1, 2, 3] : List Nat).length + 1 - 1) / 1) (2 * 1)) :=
  ⟨by decide,
   by decide,
   (c2_block_count idCodec true [1, 2, 3] 1 1 _ (by decide)).2 (by decide)⟩

/-- Counterexample to claim C4 as stated: for `S = 5`, `T = 1`, `P = 2`
the cap `2*P` reduces the block count to `4`, `blockSize = ceil(5/4) = 2`,
and the last block's offset `(4-1)*2 = 6` exceeds `S = 5`, so the
`size_t` subtraction `size - offset` at src/utilitypar.hpp line 138 wraps
to `2^64 - 1`. -/
theorem c4_cex :
    numBlocksFor 5 1 2 = 4 ∧
    blockSizeFor 5 (numBlocksFor 5 1 2) = 2 ∧
    5 < (numBlocksFor 5 1 2 - 1) * blockSizeFor 5 (numBlocksFor 5 1 2) ∧
    blockLen 5 (blockSizeFor 5 (numBlocksFor 5 1 2)) (numBlocksFor 5 1 2)
        (numBlocksFor 5 1 2 - 1)
      = 2 ^ 64 - 1 := by
  decide

/-- Claim C4, amended: whenever the thread cap does not reduce the block
count (`ceil(S/T) ≤ 2*P`), blocks `0..numBlocks-2` each have length
`blockSize`, the final offset `(numBlocks-1)*blockSize` stays within the
input, and the final block's length is the exact remainder — the unsigned
subtraction does not wrap.  (When the cap binds, it can wrap: see the
counterexample.) -/
theorem c4_last_block_amended (S T P : Nat) (hT : 0 < T) (hTS : T < S)
    (hsz : S < 2 ^ 64) (hcap : (S + T - 1) / T ≤ 2 * P) :
    (∀ i, i < numBlocksFor S T P - 1 →
        blockLen S (blockSizeFor S (numBlocksFor S T P)) (numBlocksFor S T P) i
          = blockSizeFor S (numBlocksFor S T P)) ∧
    (numBlocksFor S T P - 1) * blockSizeFor S (numBlocksFor S T P) ≤ S ∧
    blockLen S (blockSizeFor S (numBlocksFor S T P)) (numBlocksFor S T P)
        (numBlocksFor S T P - 1)
      = S - (numBlocksFor S T P - 1) * blockSizeFor S (numBlocksFor S T P) := by
  have hn : numBlocksFor S T P = (S + T - 1) / T := min_eq_left hcap
  have hS : 0 < S := lt_trans hT hTS
  have hq : 0 < (S + T - 1) / T := by
    rcases Nat.eq_zero_or_pos ((S + T - 1) / T) with h0 | h0
    · have := le_mul_ceilDiv S T hT
      rw [h0, Nat.mul_zero] at this
      omega
    · exact h0
  have hoff : (numBlocksFor S T P - 1) * blockSizeFor S (numBlocksFor S T P) ≤ S := by
    have hbs : blockSizeFor S (numBlocksFor S T P) ≤ T := by
      unfold blockSizeFor
      rw [hn]
      refine ceilDiv_le_of_le_mul S T _ (by omega) ?_
      have := le_mul_ceilDiv S T hT
      calc S ≤ T * ((S + T - 1) / T) := this
        _ = (S + T - 1) / T * T := Nat.mul_comm _ _
    have h1 : (numBlocksFor S T P - 1) * blockSizeFor S (numBlocksFor S T P)
        ≤ (numBlocksFor S T P - 1) * T := Nat.mul_le_mul_left _ hbs
    have h2 : (numBlocksFor S T P - 1) * T < S := by
      rw [hn]
      exact pred_ceilDiv_mul_lt S T hT hS
    omega
  refine ⟨fun i hi => ?_, hoff, ?_⟩
  · unfold blockLen
    rw [if_pos hi]
  · unfold blockLen
    rw [if_neg (lt_irrefl _)]
    exact usub64_eq_sub _ _ hoff hsz

/-- Witness for the amended C4 at `S = 10`, `T = 4`, `P = 2` (the spec §8
example scaled down): 3 blocks of sizes 4, 4, 2. -/
theorem c4_last_block_amended_witness :
    (0 < 4 ∧ 4 < 10 ∧ 10 < 2 ^ 64 ∧ (10 + 4 - 1) / 4 ≤ 2 * 2) ∧
    ((∀ i, i < numBlocksFor 10 4 2 - 1 →
        blockLen 10 (blockSizeFor 10 (numBlocksFor 10 4 2)) (numBlocksFor 10 4 2) i
          = blockSizeFor 10 (numBlocksFor 10 4 2)) ∧
     (numBlocksFor 10 4 2 - 1) * blockSizeFor 10 (numBlocksFor 10 4 2) ≤ 10 ∧
     blockLen 10 (blockSizeFor 10 (numBlocksFor 10 4 2)) (numBlocksFor 10 4 2)
         (numBlocksFor 10 4 2 - 1)
       = 10 - (numBlocksFor 10 4 2 - 1) * blockSizeFor 10 (numBlocksFor 10 4 2)) :=
  ⟨by decide,
   c4_last_block_amended 10 4 2 (by decide) (by decide) (by decide) (by decide)⟩

/-- If any taskloop iteration fails, the whole block-compression loop
reports failure. -/
theorem compressBlocksGo_none (codec : Codec) (data : List Nat) (bs n : Nat)
    (is : List Nat) (h : ∃ i ∈ is, compressOneBlock codec data bs n i = none) :
    compressBlocksGo codec data bs n is = none := by
  induction is with
  | nil =>
      rcases h with ⟨i, hi, _⟩
      cases hi
  | cons j rest ih =>
      rcases h with ⟨i, hi, hnone⟩
      simp only [compressBlocksGo]
      rcases List.mem_cons.mp hi with rfl | hmem
      · rw [hnone]
      · cases hj : compressOneBlock codec data bs n j
        · rfl
        · rw [ih ⟨i, hmem, hnone⟩]
          rfl

/-- Claim C6 (compression failure handling): if the codec call for the
whole buffer (single-block mode) or for any block (multi-block mode)
fails, `compressDataParallel` fails and no archive is produced; likewise
an output-file open failure yields overall failure with no archive
(src/utilitypar.hpp lines 78-90, 154-182). -/
theorem c6_compress_failure_no_archive (codec : Codec) (data : List Nat)
    (T P : Nat) :
    (∀ openOk, data.length ≤ T → codec.comp data = none →
        compressData codec openOk data T P = none) ∧
    (∀ openOk, T < data.length →
        (∃ i, i < numBlocksFor data.length T P ∧
           compressOneBlock codec data
             (blockSizeFor data.length (numBlocksFor data.length T P))
             (numBlocksFor data.length T P) i = none) →
        compressData codec openOk data T P = none) ∧
    (compressData codec false data T P = none) := by
  refine ⟨fun openOk h hnone => ?_, fun openOk h hex => ?_, ?_⟩
  · simp only [compressData, if_pos h, hnone]
  · rcases hex with ⟨i, hi, hnone⟩
    simp only [compressData, if_neg (not_le.mpr h)]
    rw [compressBlocksGo_none codec data _ _ _ ⟨i, List.mem_range.mpr hi, hnone⟩]
  · simp only [compressData]
    split
    · cases hcv : codec.comp data
      · rfl
      · simp
    · cases hgo : compressBlocksGo codec data
          (blockSizeFor data.length (numBlocksFor data.length T P))
          (numBlocksFor data.length T P) (List.range (numBlocksFor data.length T P))
      · rfl
      · simp

/-- Witness for C6: a codec whose `compress` always fails makes
single-block compression of `[1]` (threshold 5) produce no archive. -/
theorem c6_compress_failure_witness :
    ([1] : List Nat).length ≤ 5 ∧ failCodec.comp [1] = none ∧
    compressData failCodec true [1] 5 1 = none :=
  ⟨by decide, rfl,
   (c6_compress_failure_no_archive failCodec [1] 5 1).1 true (by decide) rfl⟩

/-- Counterexample to claim C10 as stated: for a 2-character filename and
a 4-character suffix, `fname.size() - strlen(SUFFIX)` wraps, but
`substr(0, huge)` does NOT raise `out_of_range` (its `pos` argument is 0,
and `std::string::substr` throws only for `pos > size()`); it clamps the
count and returns the whole filename unchanged. -/
theorem c10_cex :
    decompOutName 4 ['a', 'b'] = some ['a', 'b'] ∧
    decompOutName 4 ['a', 'b'] ≠ none := by
  constructor
  · decide
  · decide

/-- Claim C10, amended: the output name keeps the first
`size - strlen(SUFFIX)` characters whenever the name is at least as long
as the suffix — with no check that the name actually ends in the suffix —
and for a shorter name the wrapped count makes `substr` return the whole
name unchanged (no exception). -/
theorem c10_outname_amended (slen : Nat) (fname : List Char)
    (hs : slen < 2 ^ 64) (hf : fname.length < 2 ^ 64) :
    decompOutName slen fname
      = some (if slen ≤ fname.length then fname.take (fname.length - slen)
              else fname) := by
  unfold decompOutName substrCpp
  rw [if_neg (by omega), List.drop_zero]
  by_cases h : slen ≤ fname.length
  · rw [if_pos h, usub64_eq_sub _ _ h hf]
  · rw [if_neg h]
    have hcount : fname.length ≤ usub64 fname.length slen := by
      unfold usub64
      omega
    rw [List.take_of_length_le hcount]

/-- Witness for the amended C10: stripping a 4-character suffix from the
6-character name `abcdef` keeps `ab`; hypotheses hold at these sizes. -/
theorem c10_outname_amended_witness :
    (4 < 2 ^ 64 ∧ (['a', 'b', 'c', 'd', 'e', 'f'] : List Char).length < 2 ^ 64) ∧
    decompOutName 4 ['a', 'b', 'c', 'd', 'e', 'f']
      = some (if 4 ≤ (['a', 'b', 'c', 'd', 'e', 'f'] : List Char).length
              then (['a', 'b', 'c', 'd', 'e', 'f'] : List Char).take
                     ((['a', 'b', 'c', 'd', 'e', 'f'] : List Char).length - 4)
              else ['a', 'b', 'c', 'd', 'e', 'f']) :=
  ⟨⟨by decide, by decide⟩,
   c10_outname_amended 4 ['a', 'b', 'c', 'd', 'e', 'f'] (by decide) (by decide)⟩

/-- Unfolding of a successful per-block compression: the slice was in
bounds, the codec succeeded, and the descriptor records the block length,
the compressed length, and the block index. -/
theorem compressOneBlock_spec (codec : Codec) (data : List Nat) (bs n i : Nat)
    (pc : DataBlock × List Nat) (h : compressOneBlock codec data bs n i = some pc) :
    ∃ s, extractBlock data (i * bs) (blockLen data.length bs n i) = some s ∧
      codec.comp s = some pc.2 ∧
      pc.1 = ⟨blockLen data.length bs n i, pc.2.length, i⟩ := by
  unfold compressOneBlock at h
  split at h
  next => cases h
  next s he =>
    split at h
    next => cases h
    next c hcv =>
      cases h
      exact ⟨s, he, hcv, rfl⟩

/-- Unfolding of a successful block extraction. -/
theorem extractBlock_spec (data : List Nat) (o l : Nat) (s : List Nat)
    (h : extractBlock data o l = some s) :
    o + l ≤ data.length ∧ s = (data.drop o).take l ∧ s.length = l := by
  unfold extractBlock at h
  split at h
  · cases h
    refine ⟨by assumption, rfl, ?_⟩
    rw [List.length_take, List.length_drop]
    omega
  · cases h

/-- A successful taskloop run relates every index to its per-block result. -/
theorem compressBlocksGo_forall₂ (codec : Codec) (data : List Nat) (bs n : Nat) :
    ∀ (is : List Nat) (pcs : List (DataBlock × List Nat)),
      compressBlocksGo codec data bs n is = some pcs →
      List.Forall₂ (fun i pc => compressOneBlock codec data bs n i = some pc) is pcs := by
  intro is
  induction is with
  | nil =>
      intro pcs h
      simp only [compressBlocksGo] at h
      cases h
      exact .nil
  | cons j rest ih =>
      intro pcs h
      simp only [compressBlocksGo] at h
      cases hj : compressOneBlock codec data bs n j with
      | none => rw [hj] at h; cases h
      | some pc =>
          rw [hj] at h
          cases hr : compressBlocksGo codec data bs n rest with
          | none => rw [hr] at h; cases h
          | some pcs' =>
              rw [hr] at h
              cases h
              exact .cons hj (ih _ hr)

/-- Pointwise access to a `Forall₂`. -/
theorem forall₂_getElem {α β : Type} {R : α → β → Prop} {l₁ : List α}
    {l₂ : List β} (h : List.Forall₂ R l₁ l₂) (i : Nat) (h₁ : i < l₁.length)
    (h₂ : i < l₂.length) : R l₁[i] l₂[i] := by
  have := (List.forall₂_iff_get.mp h).2 i h₁ h₂
  simpa [List.get_eq_getElem] using this

/-- A `Forall₂` whose relation is an equation of projections turns into an
equation of maps. -/
theorem forall₂_map_eq {α β γ : Type} (f : α → γ) (g : β → γ) :
    ∀ {l₁ : List α} {l₂ : List β},
      List.Forall₂ (fun a b => g b = f a) l₁ l₂ → l₂.map g = l₁.map f := by
  intro l₁ l₂ h
  induction h with
  | nil => rfl
  | cons hab _ ih => simp only [List.map_cons, ih, hab]

/-- Decomposition of a successful single-block compression (lines 71-107
of src/utilitypar.hpp). -/
theorem compressData_single_spec (codec : Codec) (openOk : Bool)
    (data : List Nat) (T P : Nat) (a : ArchiveFile) (h : data.length ≤ T)
    (hc : compressData codec openOk data T P = some a) :
    ∃ c, codec.comp data = some c ∧
      a = ⟨1, [⟨data.length, c.length, 0⟩], c⟩ := by
  simp only [compressData, if_pos h] at hc
  cases hcv : codec.comp data with
  | none => rw [hcv] at hc; cases hc
  | some c =>
      rw [hcv] at hc
      cases openOk with
      | false => simp at hc
      | true =>
          simp only [if_true] at hc
          cases hc
          exact ⟨c, rfl, rfl⟩

/-- Decomposition of a successful multi-block compression (lines 108-199
of src/utilitypar.hpp). -/
theorem compressData_multi_spec (codec : Codec) (openOk : Bool)
    (data : List Nat) (T P : Nat) (a : ArchiveFile) (h : T < data.length)
    (hc : compressData codec openOk data T P = some a) :
    ∃ pcs, compressBlocksGo codec data
        (blockSizeFor data.length (numBlocksFor data.length T P))
        (numBlocksFor data.length T P)
        (List.range (numBlocksFor data.length T P)) = some pcs ∧
      a = ⟨numBlocksFor data.length T P, pcs.map Prod.fst,
           (pcs.map Prod.snd).flatten⟩ := by
  simp only [compressData, if_neg (not_le.mpr h)] at hc
  cases hgo : compressBlocksGo codec data
      (blockSizeFor data.length (numBlocksFor data.length T P))
      (numBlocksFor data.length T P)
      (List.range (numBlocksFor data.length T P)) with
  | none => rw [hgo] at hc; cases hc
  | some pcs =>
      rw [hgo] at hc
      cases openOk with
      | false => simp at hc
      | true =>
          simp only [if_true] at hc
          cases hc
          exact ⟨pcs, rfl, rfl⟩

/-- Summing a constant over `List.range`. -/
theorem sum_map_const_range (m c : Nat) :
    ((List.range m).map (fun _ => c)).sum = m * c := by
  induction m with
  | zero => simp
  | succ k ih =>
      rw [List.range_succ, List.map_append, List.sum_append]
      simp [ih, Nat.succ_mul]

/-- In a successful multi-block compression the final block's offset stays
within the input, so its `size_t` length is the exact remainder.  Also
returns `1 ≤ n` for convenience. -/
theorem compress_last_block_bounds (codec : Codec) (data : List Nat)
    (T P : Nat) (pcs : List (DataBlock × List Nat)) (hT : 0 < T) (hP : 0 < P)
    (hTS : T < data.length)
    (hgo : compressBlocksGo codec data
        (blockSizeFor data.length (numBlocksFor data.length T P))
        (numBlocksFor data.length T P)
        (List.range (numBlocksFor data.length T P)) = some pcs) :
    1 ≤ numBlocksFor data.length T P ∧
    (numBlocksFor data.length T P - 1) *
        blockSizeFor data.length (numBlocksFor data.length T P) ≤ data.length := by
  have hfa := compressBlocksGo_forall₂ codec data _ _ _ pcs hgo
  have hlen : pcs.length = numBlocksFor data.length T P := by
    have := hfa.length_eq
    simpa using this.symm
  have hn1 : 1 ≤ numBlocksFor data.length T P := by
    unfold numBlocksFor
    have h1 : 1 ≤ (data.length + T - 1) / T := by
      rcases Nat.eq_zero_or_pos ((data.length + T - 1) / T) with h0 | h0
      · have := le_mul_ceilDiv data.length T hT
        rw [h0, Nat.mul_zero] at this
        omega
      · exact h0
    omega
  refine ⟨hn1, ?_⟩
  have hi : numBlocksFor data.length T P - 1 < (List.range (numBlocksFor data.length T P)).length := by
    simp
    omega
  have hi2 : numBlocksFor data.length T P - 1 < pcs.length := by
    rw [hlen]
    omega
  have hpt := forall₂_getElem hfa (numBlocksFor data.length T P - 1) hi hi2
  rw [List.getElem_range] at hpt
  obtain ⟨s, he, -, -⟩ := compressOneBlock_spec _ _ _ _ _ _ hpt
  obtain ⟨hb, -, -⟩ := extractBlock_spec _ _ _ _ he
  omega

/-- In a successful multi-block compression the descriptors' original
sizes sum to the input length. -/
theorem compress_multi_sumOrig (codec : Codec) (data : List Nat)
    (T P : Nat) (pcs : List (DataBlock × List Nat)) (hT : 0 < T) (hP : 0 < P)
    (hsz : data.length < 2 ^ 64) (hTS : T < data.length)
    (hgo : compressBlocksGo codec data
        (blockSizeFor data.length (numBlocksFor data.length T P))
        (numBlocksFor data.length T P)
        (List.range (numBlocksFor data.length T P)) = some pcs) :
    sumOrig (pcs.map Prod.fst) = data.length := by
  obtain ⟨hn1, hoff⟩ := compress_last_block_bounds codec data T P pcs hT hP hTS hgo
  have hfa := compressBlocksGo_forall₂ codec data _ _ _ pcs hgo
  have hmap : (pcs.map Prod.fst).map (·.originalSize)
      = (List.range (numBlocksFor data.length T P)).map
          (fun i => blockLen data.length
            (blockSizeFor data.length (numBlocksFor data.length T P))
            (numBlocksFor data.length T P) i) := by
    rw [List.map_map]
    refine forall₂_map_eq _ _ (hfa.imp ?_)
    intro i pc hp
    obtain ⟨s, -, -, hblk⟩ := compressOneBlock_spec _ _ _ _ _ _ hp
    show pc.1.originalSize = blockLen data.length
      (blockSizeFor data.length (numBlocksFor data.length T P))
      (numBlocksFor data.length T P) i
    rw [hblk]
  unfold sumOrig
  rw [hmap]
  have hsplit : numBlocksFor data.length T P
      = (numBlocksFor data.length T P - 1) + 1 := by omega
  have hfirst : ((List.range (numBlocksFor data.length T P - 1)).map
      (fun i => blockLen data.length
        (blockSizeFor data.length (numBlocksFor data.length T P))
        (numBlocksFor data.length T P) i)).sum
      = (numBlocksFor data.length T P - 1) *
          blockSizeFor data.length (numBlocksFor data.length T P) := by
    rw [List.map_congr_left (g := fun _ =>
          blockSizeFor data.length (numBlocksFor data.length T P)) ?_]
    · exact sum_map_const_range _ _
    · intro i hi
      have : i < numBlocksFor data.length T P - 1 := List.mem_range.mp hi
      unfold blockLen
      rw [if_pos (by omega)]
  have hlast : blockLen data.length
      (blockSizeFor data.length (numBlocksFor data.length T P))
      (numBlocksFor data.length T P)
      (numBlocksFor data.length T P - 1)
      = data.length - (numBlocksFor data.length T P - 1) *
          blockSizeFor data.length (numBlocksFor data.length T P) := by
    unfold blockLen
    rw [if_neg (lt_irrefl _)]
    exact usub64_eq_sub _ _ (by omega) hsz
  have hstep : ∀ (f : Nat → Nat) (m : Nat),
      ((List.range (m + 1)).map f).sum = ((List.range m).map f).sum + f m := by
    intro f m
    rw [List.range_succ, List.map_append, List.sum_append]
    simp
  have hsum := hstep (fun i => blockLen data.length
      (blockSizeFor data.length (numBlocksFor data.length T P))
      (numBlocksFor data.length T P) i) (numBlocksFor data.length T P - 1)
  rw [← hsplit] at hsum
  rw [hsum, hfirst]
  show (numBlocksFor data.length T P - 1) *
      blockSizeFor data.length (numBlocksFor data.length T P) +
      blockLen data.length (blockSizeFor data.length (numBlocksFor data.length T P))
        (numBlocksFor data.length T P) (numBlocksFor data.length T P - 1)
    = data.length
  rw [hlast]
  omega

/-- Claim C3 (descriptor sum invariant): for every archive the compressor
actually produces, the `originalSize` fields of the descriptor table sum
to the length of the uncompressed input, whatever the split.  (Threshold
and parallelism are positive — a zero threshold divides by zero at
src/utilitypar.hpp line 113 — and sizes fit in `size_t`.) -/
theorem c3_descriptor_sum (codec : Codec) (openOk : Bool) (data : List Nat)
    (T P : Nat) (a : ArchiveFile) (hT : 0 < T) (hP : 0 < P)
    (hsz : data.length < 2 ^ 64)
    (hc : compressData codec openOk data T P = some a) :
    sumOrig a.blocks = data.length := by
  by_cases h : data.length ≤ T
  · obtain ⟨c, -, rfl⟩ := compressData_single_spec codec openOk data T P a h hc
    simp [sumOrig]
  · have hTS : T < data.length := not_le.mp h
    obtain ⟨pcs, hgo, rfl⟩ := compressData_multi_spec codec openOk data T P a hTS hc
    exact compress_multi_sumOrig codec data T P pcs hT hP hsz hTS hgo

/-- Witness for C3: the two descriptors of the archive for `[1,2,3]`
(threshold 1, parallelism 1) have original sizes `2 + 1 = 3`. -/
theorem c3_descriptor_sum_witness :
    (0 < 1 ∧ ([1, 2, 3] : List Nat).length < 2 ^ 64 ∧
      compressData idCodec true [1, 2, 3] 1 1
        = some ⟨2, [⟨2, 2, 0⟩, ⟨1, 1, 1⟩], [1, 2, 3]⟩) ∧
    sumOrig (⟨2, [⟨2, 2, 0⟩, ⟨1, 1, 1⟩], [1, 2, 3]⟩ : ArchiveFile).blocks
      = ([1, 2, 3] : List Nat).length :=
  ⟨⟨by decide, by decide, by decide⟩,
   c3_descriptor_sum idCodec true [1, 2, 3] 1 1 _ (by decide) (by decide)
     (by decide) (by decide)⟩

/-- Claim C5 (archive layout): every archive written on success consists
of the block count, then the `numBlocks` descriptors in ascending
`blockIndex` order (descriptor `i` carries `blockIndex = i`), then the
compressed payloads concatenated in the same ascending index order
(payload `i` has exactly the length descriptor `i` records) — the write
loops at src/utilitypar.hpp lines 184-196 iterate `i = 0..numBlocks-1`
regardless of the temporal order in which the tasks compressed blocks. -/
theorem c5_archive_layout (codec : Codec) (openOk : Bool) (data : List Nat)
    (T P : Nat) (a : ArchiveFile)
    (hc : compressData codec openOk data T P = some a) :
    a.blocks.length = a.numBlocks ∧
    (∀ i (h : i < a.blocks.length), a.blocks[i].blockIndex = i) ∧
    ∃ cs : List (List Nat), cs.length = a.numBlocks ∧ a.payload = cs.flatten ∧
      ∀ i (h : i < a.blocks.length) (h₂ : i < cs.length),
        a.blocks[i].compressedSize = cs[i].length := by
  by_cases h : data.length ≤ T
  · obtain ⟨c, -, rfl⟩ := compressData_single_spec codec openOk data T P a h hc
    refine ⟨rfl, ?_, [c], rfl, by simp, ?_⟩
    · intro i hi
      have : i = 0 := by
        simp at hi
        omega
      subst this
      rfl
    · intro i hi h2
      have : i = 0 := by
        simp at hi
        omega
      subst this
      rfl
  · have hTS : T < data.length := not_le.mp h
    obtain ⟨pcs, hgo, rfl⟩ := compressData_multi_spec codec openOk data T P a hTS hc
    have hfa := compressBlocksGo_forall₂ codec data _ _ _ pcs hgo
    have hlen : pcs.length = numBlocksFor data.length T P := by
      have := hfa.length_eq
      simpa using this.symm
    have hpoint : ∀ i (h2 : i < pcs.length),
        pcs[i].1 = ⟨blockLen data.length
            (blockSizeFor data.length (numBlocksFor data.length T P))
            (numBlocksFor data.length T P) i, pcs[i].2.length, i⟩ := by
      intro i h2
      have hi1 : i < (List.range (numBlocksFor data.length T P)).length := by
        simp
        omega
      have hpt := forall₂_getElem hfa i hi1 h2
      rw [List.getElem_range] at hpt
      obtain ⟨s, -, -, hblk⟩ := compressOneBlock_spec _ _ _ _ _ _ hpt
      exact hblk
    refine ⟨by simpa using hlen, ?_, pcs.map Prod.snd, by simpa using hlen, rfl, ?_⟩
    · intro i hi
      have h2 : i < pcs.length := by simpa using hi
      show (pcs.map Prod.fst)[i].blockIndex = i
      rw [List.getElem_map, hpoint i h2]
    · intro i hi h2
      have h3 : i < pcs.length := by simpa using hi
      show (pcs.map Prod.fst)[i].compressedSize = (pcs.map Prod.snd)[i].length
      rw [List.getElem_map, List.getElem_map, hpoint i h3]

/-- Witness for C5 on the concrete two-block archive of `[1,2,3]`. -/
theorem c5_archive_layout_witness :
    compressData idCodec true [1, 2, 3] 1 1
      = some ⟨2, [⟨2, 2, 0⟩, ⟨1, 1, 1⟩], [1, 2, 3]⟩ ∧
    ((⟨2, [⟨2, 2, 0⟩, ⟨1, 1, 1⟩], [1, 2, 3]⟩ : ArchiveFile).blocks.length
        = (⟨2, [⟨2, 2, 0⟩, ⟨1, 1, 1⟩], [1, 2, 3]⟩ : ArchiveFile).numBlocks ∧
     (∀ i (h : i < (⟨2, [⟨2, 2, 0⟩, ⟨1, 1, 1⟩], [1, 2, 3]⟩ : ArchiveFile).blocks.length),
        (⟨2, [⟨2, 2, 0⟩, ⟨1, 1, 1⟩], [1, 2, 3]⟩ : ArchiveFile).blocks[i].blockIndex = i) ∧
     ∃ cs : List (List Nat),
        cs.length = (⟨2, [⟨2, 2, 0⟩, ⟨1, 1, 1⟩], [1, 2, 3]⟩ : ArchiveFile).numBlocks ∧
        (⟨2, [⟨2, 2, 0⟩, ⟨1, 1, 1⟩], [1, 2, 3]⟩ : ArchiveFile).payload = cs.flatten ∧
        ∀ i (h : i < (⟨2, [⟨2, 2, 0⟩, ⟨1, 1, 1⟩], [1, 2, 3]⟩ : ArchiveFile).blocks.length)
          (h₂ : i < cs.length),
          (⟨2, [⟨2, 2, 0⟩, ⟨1, 1, 1⟩], [1, 2, 3]⟩ : ArchiveFile).blocks[i].compressedSize
            = cs[i].length) :=
  ⟨by decide,
   c5_archive_layout idCodec true [1, 2, 3] 1 1 _ (by decide)⟩

/-- An in-bounds `writeRange` preserves the buffer length (the mapped
output file never grows). -/
theorem writeRange_length (buf : List Nat) (offset : Nat) (xs : List Nat)
    (h : offset + xs.length ≤ buf.length) :
    (writeRange buf offset xs).length = buf.length := by
  unfold writeRange
  rw [List.length_append, List.length_append, List.length_take, List.length_drop]
  omega

/-- The part of the buffer up to the end of an in-bounds write. -/
theorem writeRange_take (buf : List Nat) (offset : Nat) (xs : List Nat)
    (h : offset + xs.length ≤ buf.length) :
    (writeRange buf offset xs).take (offset + xs.length) = buf.take offset ++ xs := by
  unfold writeRange
  refine List.take_left' ?_
  rw [List.length_append, List.length_take]
  omega

/-- The buffer past the end of an in-bounds write is untouched. -/
theorem writeRange_drop (buf : List Nat) (offset : Nat) (xs : List Nat) (k : Nat)
    (h : offset + xs.length ≤ buf.length) :
    (writeRange buf offset xs).drop (offset + xs.length + k)
      = buf.drop (offset + xs.length + k) := by
  unfold writeRange
  have hlen : (buf.take offset ++ xs).length = offset + xs.length := by
    rw [List.length_append, List.length_take]
    omega
  rw [← List.drop_drop (l := buf.take offset ++ xs ++ buf.drop (offset + xs.length))]
  rw [List.drop_left' hlen, List.drop_drop]

/-- Every element on the right of a `Forall₂` is related to some element
on the left. -/
theorem forall₂_mem_right {α β : Type} {R : α → β → Prop} :
    ∀ {l₁ : List α} {l₂ : List β}, List.Forall₂ R l₁ l₂ →
      ∀ b ∈ l₂, ∃ a ∈ l₁, R a b := by
  intro l₁ l₂ h
  induction h with
  | nil => intro b hb; cases hb
  | cons hab htail ih =>
      intro b hb
      rcases List.mem_cons.mp hb with rfl | hmem
      · exact ⟨_, List.mem_cons_self _ _, hab⟩
      · obtain ⟨a, ha, hr⟩ := ih b hmem
        exact ⟨a, List.mem_cons_of_mem _ ha, hr⟩

/-- Consecutive `blockSize`-sized slices tile the buffer up to `m *
blockSize`. -/
theorem tile_join : ∀ (m : Nat) (data : List Nat) (bs : Nat),
    m * bs ≤ data.length →
    ((List.range m).map (fun i => (data.drop (i * bs)).take bs)).flatten
        ++ data.drop (m * bs) = data := by
  intro m
  induction m with
  | zero =>
      intro data bs h
      simp
  | succ k ih =>
      intro data bs h
      rw [List.range_succ_eq_map, List.map_cons, List.flatten_cons]
      have htail : (List.map Nat.succ (List.range k)).map
            (fun i => (data.drop (i * bs)).take bs)
          = (List.range k).map (fun i => ((data.drop bs).drop (i * bs)).take bs) := by
        rw [List.map_map]
        refine List.map_congr_left ?_
        intro i hi
        simp only [Function.comp]
        rw [List.drop_drop, Nat.succ_mul, Nat.add_comm (i * bs) bs]
      have hdk : data.drop ((k + 1) * bs) = (data.drop bs).drop (k * bs) := by
        rw [List.drop_drop, Nat.succ_mul, Nat.add_comm (k * bs) bs]
      have hk : k * bs ≤ (data.drop bs).length := by
        rw [List.length_drop]
        have : (k + 1) * bs = k * bs + bs := Nat.succ_mul k bs
        omega
      rw [htail, hdk, Nat.zero_mul, List.drop_zero, List.append_assoc, ih _ _ hk]
      exact List.take_append_drop bs data

/-- The slices the multi-block compressor actually reads concatenate back
to the full input: the first `n - 1` have length `blockSize`, the last one
is the remainder. -/
theorem slices_flatten (data : List Nat) (bs : Nat) (hsz : data.length < 2 ^ 64) :
    ∀ (m : Nat), m * bs ≤ data.length →
    ((List.range (m + 1)).map
        (fun i => (data.drop (i * bs)).take (blockLen data.length bs (m + 1) i))).flatten
      = data := by
  intro m hoff
  rw [List.range_succ, List.map_append, List.flatten_append]
  have hfirst : (List.range m).map
        (fun i => (data.drop (i * bs)).take (blockLen data.length bs (m + 1) i))
      = (List.range m).map (fun i => (data.drop (i * bs)).take bs) := by
    refine List.map_congr_left ?_
    intro i hi
    have h2 : i < m := List.mem_range.mp hi
    unfold blockLen
    rw [if_pos (by omega)]
  have hlast : (data.drop (m * bs)).take (blockLen data.length bs (m + 1) m)
      = data.drop (m * bs) := by
    refine List.take_of_length_le ?_
    rw [List.length_drop]
    unfold blockLen
    rw [if_neg (by omega)]
    unfold usub64
    omega
  rw [hfirst]
  simp only [List.map_cons, List.map_nil, List.flatten_cons, List.flatten_nil,
    List.append_nil]
  rw [hlast]
  exact tile_join m data bs hoff

/-- Main decompression-loop lemma: if each descriptor is honest (its
`originalSize`/`compressedSize` match a decompressed slice `s` and a
compressed slice `c`, and the codec maps `c` back to `s`), and the payload
from `inOff` on starts with the compressed slices in order, then the loop
writes exactly the concatenation of the decompressed slices at `outOff`
and reports the incoming flag. -/
theorem decompLoop_ok (codec : Codec) (payload : List Nat) :
    ∀ (q : List (DataBlock × List Nat × List Nat)) (inOff outOff : Nat)
      (buf : List Nat) (flag : Bool),
      (∀ t ∈ q, t.1.originalSize = t.2.1.length ∧
        t.1.compressedSize = t.2.2.length ∧
        codec.decomp t.2.2 t.2.1.length = some t.2.1) →
      (∃ rest, payload.drop inOff = (q.map (fun t => t.2.2)).flatten ++ rest) →
      outOff + ((q.map (fun t => t.2.1)).flatten).length ≤ buf.length →
      decompBlocksLoop codec payload (q.map (fun t => t.1)) inOff outOff buf flag
        = (buf.take outOff ++ (q.map (fun t => t.2.1)).flatten
            ++ buf.drop (outOff + ((q.map (fun t => t.2.1)).flatten).length), flag) := by
  intro q
  induction q with
  | nil =>
      intro inOff outOff buf flag hq hpay hbuf
      simp only [List.map_nil, List.flatten_nil, List.length_nil, Nat.add_zero,
        decompBlocksLoop, List.append_nil]
      rw [List.take_append_drop]
  | cons t q' ih =>
      intro inOff outOff buf flag hq hpay hbuf
      obtain ⟨b, s, c⟩ := t
      obtain ⟨hb1, hb2, hb3⟩ := hq _ (List.mem_cons_self _ _)
      simp only at hb1 hb2 hb3
      have hq' := fun t ht => hq t (List.mem_cons_of_mem _ ht)
      obtain ⟨rest, hrest⟩ := hpay
      simp only [List.map_cons, List.flatten_cons] at hrest hbuf ⊢
      have hWin : outOff + s.length ≤ buf.length := by
        rw [List.length_append] at hbuf
        omega
      have hread : (payload.drop inOff).take b.compressedSize = c := by
        rw [hrest, hb2, List.append_assoc]
        exact List.take_left' rfl
      have hdec : codec.decomp c b.originalSize = some s := by
        rw [hb1]
        exact hb3
      have hstep : decompBlocksLoop codec payload
            (b :: q'.map (fun t => t.1)) inOff outOff buf flag
          = decompBlocksLoop codec payload (q'.map (fun t => t.1))
              (inOff + b.compressedSize) (outOff + b.originalSize)
              (writeRange buf outOff s) flag := by
        simp only [decompBlocksLoop]
        rw [hread, hdec]
      have hpay' : payload.drop (inOff + b.compressedSize)
          = (q'.map (fun t => t.2.2)).flatten ++ rest := by
        rw [hb2, ← List.drop_drop, hrest, List.append_assoc]
        exact List.drop_left' rfl
      have hWlen : (writeRange buf outOff s).length = buf.length :=
        writeRange_length buf outOff s hWin
      have hbuf' : (outOff + b.originalSize)
            + ((q'.map (fun t => t.2.1)).flatten).length
          ≤ (writeRange buf outOff s).length := by
        rw [hWlen, hb1, List.length_append] at *
        rw [hb1]
        omega
      rw [hstep, ih _ _ _ _ hq' ⟨rest, hpay'⟩ hbuf']
      have htake : (writeRange buf outOff s).take (outOff + b.originalSize)
          = buf.take outOff ++ s := by
        rw [hb1]
        exact writeRange_take buf outOff s hWin
      have hdrop : (writeRange buf outOff s).drop
            ((outOff + b.originalSize) + ((q'.map (fun t => t.2.1)).flatten).length)
          = buf.drop ((outOff + b.originalSize)
              + ((q'.map (fun t => t.2.1)).flatten).length) := by
        rw [hb1]
        exact writeRange_drop buf outOff s _ hWin
      rw [htake, hdrop, hb1, List.length_append]
      simp only [List.append_assoc, Nat.add_assoc]

/-- Claim C1 (round-trip): whatever archive `compressDataParallel`
produces from a buffer `B` — single-block (`|B| ≤ T`, including `|B| = 0`
and `|B| = T`) or multi-block (`|B| = T+1` or `|B| ≫ T`) —
`decompressDataParallel` reconstructs exactly `B`.  Threshold and
parallelism are positive (a zero threshold divides by zero at
src/utilitypar.hpp line 113; OpenMP guarantees at least one thread) and
the buffer size is `size_t`-representable. -/
theorem c1_round_trip (codec : Codec) (openOk : Bool) (data : List Nat)
    (T P : Nat) (a : ArchiveFile) (hT : 0 < T) (hP : 0 < P)
    (hsz : data.length < 2 ^ 64)
    (hc : compressData codec openOk data T P = some a) :
    decompressData codec a = .ok data := by
  by_cases h : data.length ≤ T
  · obtain ⟨c, hcv, rfl⟩ := compressData_single_spec codec openOk data T P a h hc
    simp only [decompressData, if_pos rfl, List.headD_cons]
    rw [List.take_length, codec.round_trip data c hcv]
    unfold writeRange
    simp
  · have hTS : T < data.length := not_le.mp h
    obtain ⟨pcs, hgo, rfl⟩ := compressData_multi_spec codec openOk data T P a hTS hc
    set n := numBlocksFor data.length T P with hn
    set bs := blockSizeFor data.length n with hbs
    obtain ⟨hn1, hoff⟩ := compress_last_block_bounds codec data T P pcs hT hP hTS hgo
    rw [← hn] at hn1
    rw [← hn, ← hbs] at hoff
    have hfa := compressBlocksGo_forall₂ codec data _ _ _ pcs hgo
    have hlen : pcs.length = n := by
      have := hfa.length_eq
      simpa using this.symm
    have hn2 : 2 ≤ n := by
      have h2T : 2 ≤ (data.length + T - 1) / T :=
        (Nat.le_div_iff_mul_le hT).mpr (by omega)
      rw [hn]
      unfold numBlocksFor
      exact le_min h2T (by omega)
    have hnot1 : ¬ (n = 1) := by omega
    have hsum : sumOrig (pcs.map Prod.fst) = data.length :=
      compress_multi_sumOrig codec data T P pcs hT hP hsz hTS hgo
    -- the per-block data: descriptor, decompressed slice, compressed slice
    have hq : ∀ t ∈ pcs.map (fun pc => (pc.1,
        (data.drop (pc.1.blockIndex * bs)).take pc.1.originalSize, pc.2)),
        t.1.originalSize = t.2.1.length ∧
        t.1.compressedSize = t.2.2.length ∧
        codec.decomp t.2.2 t.2.1.length = some t.2.1 := by
      intro t ht
      obtain ⟨pc, hpc, rfl⟩ := List.mem_map.mp ht
      obtain ⟨i, hi, hone⟩ := forall₂_mem_right hfa pc hpc
      obtain ⟨s, he, hcomp, hblk⟩ := compressOneBlock_spec _ _ _ _ _ _ hone
      obtain ⟨hb, hseq, hslen⟩ := extractBlock_spec _ _ _ _ he
      have hslice : (data.drop (pc.1.blockIndex * bs)).take pc.1.originalSize = s := by
        rw [hblk]
        exact hseq.symm
      refine ⟨?_, ?_, ?_⟩
      · show pc.1.originalSize = _
        rw [hslice, hblk, hslen]
      · show pc.1.compressedSize = pc.2.length
        rw [hblk]
      · show codec.decomp pc.2 _ = some _
        rw [hslice]
        exact codec.round_trip s pc.2 hcomp
    have hA : (pcs.map (fun pc => (pc.1,
          (data.drop (pc.1.blockIndex * bs)).take pc.1.originalSize, pc.2))).map
            (fun t => t.1)
        = pcs.map Prod.fst := by
      rw [List.map_map]
      exact List.map_congr_left fun pc _ => rfl
    have hC : (pcs.map (fun pc => (pc.1,
          (data.drop (pc.1.blockIndex * bs)).take pc.1.originalSize, pc.2))).map
            (fun t => t.2.2)
        = pcs.map Prod.snd := by
      rw [List.map_map]
      exact List.map_congr_left fun pc _ => rfl
    have hD : (pcs.map (fun pc => (pc.1,
          (data.drop (pc.1.blockIndex * bs)).take pc.1.originalSize, pc.2))).map
            (fun t => t.2.1)
        = (List.range n).map
            (fun i => (data.drop (i * bs)).take (blockLen data.length bs n i)) := by
      rw [List.map_map]
      refine forall₂_map_eq _ _ (hfa.imp ?_)
      intro i pc hp
      obtain ⟨s, he, hcomp, hblk⟩ := compressOneBlock_spec _ _ _ _ _ _ hp
      show (data.drop (pc.1.blockIndex * bs)).take pc.1.originalSize
        = (data.drop (i * bs)).take (blockLen data.length bs n i)
      rw [hblk]
    have hflat : ((pcs.map (fun pc => (pc.1,
          (data.drop (pc.1.blockIndex * bs)).take pc.1.originalSize, pc.2))).map
            (fun t => t.2.1)).flatten
        = data := by
      rw [hD]
      obtain ⟨m, hm⟩ : ∃ m, n = m + 1 := ⟨n - 1, by omega⟩
      rw [hm]
      refine slices_flatten data bs hsz m ?_
      rw [hm] at hoff
      simpa using hoff
    have hbuf : 0 + (((pcs.map (fun pc => (pc.1,
          (data.drop (pc.1.blockIndex * bs)).take pc.1.originalSize, pc.2))).map
            (fun t => t.2.1)).flatten).length
        ≤ (List.replicate data.length 0).length := by
      rw [hflat, List.length_replicate]
      omega
    have happ := decompLoop_ok codec ((pcs.map Prod.snd).flatten)
      (pcs.map (fun pc => (pc.1,
        (data.drop (pc.1.blockIndex * bs)).take pc.1.originalSize, pc.2)))
      0 0 (List.replicate data.length 0) true hq
      ⟨[], by rw [hC, List.drop_zero, List.append_nil]⟩ hbuf
    rw [hA, hflat] at happ
    simp only [List.take_zero, List.nil_append, Nat.zero_add] at happ
    have hdroprep : (List.replicate data.length (0 : Nat)).drop data.length = [] := by
      rw [List.drop_of_length_le (by rw [List.length_replicate])]
    rw [hdroprep, List.append_nil] at happ
    have hbl : ((pcs.map Prod.fst).take n) = pcs.map Prod.fst :=
      List.take_of_length_le (by rw [List.length_map, hlen])
    show decompressData codec ⟨n, pcs.map Prod.fst, (pcs.map Prod.snd).flatten⟩
      = .ok data
    simp only [decompressData, if_neg hnot1]
    rw [hbl, hsum, happ]
    simp

/-- Witness for C1: the two-block archive of `[1,2,3]` (threshold 1,
parallelism 1, identity codec) decompresses back to `[1,2,3]`. -/
theorem c1_round_trip_witness :
    (0 < 1 ∧ ([1, 2, 3] : List Nat).length < 2 ^ 64 ∧
      compressData idCodec true [1, 2, 3] 1 1
        = some ⟨2, [⟨2, 2, 0⟩, ⟨1, 1, 1⟩], [1, 2, 3]⟩) ∧
    decompressData idCodec ⟨2, [⟨2, 2, 0⟩, ⟨1, 1, 1⟩], [1, 2, 3]⟩
      = .ok [1, 2, 3] :=
  ⟨⟨by decide, by decide, by decide⟩,
   c1_round_trip idCodec true [1, 2, 3] 1 1 _ (by decide) (by decide) (by decide)
     (by decide)⟩

/-- A write at `offset` leaves the buffer before `offset` unchanged. -/
theorem writeRange_take_front (buf : List Nat) (offset : Nat) (xs : List Nat)
    (h : offset ≤ buf.length) :
    (writeRange buf offset xs).take offset = buf.take offset := by
  unfold writeRange
  rw [List.append_assoc,
    List.take_append_of_le_length (by rw [List.length_take]; omega)]
  rw [List.take_take]
  congr 1
  omega

/-- Dropping up to an in-bounds write exposes the written bytes followed
by the untouched tail. -/
theorem writeRange_drop_front (buf : List Nat) (offset : Nat) (xs : List Nat)
    (h : offset ≤ buf.length) :
    (writeRange buf offset xs).drop offset = xs ++ buf.drop (offset + xs.length) := by
  unfold writeRange
  rw [List.append_assoc]
  exact List.drop_left' (by rw [List.length_take]; omega)

/-- Fail-slow decompression-loop lemma, for arbitrary (possibly failing)
blocks: the loop never changes the buffer size, never touches the buffer
before `outOff`, reports success exactly when the incoming flag is set and
every block decodes, and — failures in other blocks notwithstanding —
every block that decodes has its output present at its own offset. -/
theorem decompLoop_partial (codec : Codec) (payload : List Nat) :
    ∀ (blocks : List DataBlock) (inOff outOff : Nat) (buf : List Nat)
      (flag : Bool),
      outOff + sumOrig blocks ≤ buf.length →
      (decompBlocksLoop codec payload blocks inOff outOff buf flag).1.length
          = buf.length ∧
      (decompBlocksLoop codec payload blocks inOff outOff buf flag).1.take outOff
          = buf.take outOff ∧
      (decompBlocksLoop codec payload blocks inOff outOff buf flag).2
          = (flag && blocksOk codec payload blocks inOff) ∧
      (∀ i (hi : i < blocks.length) (out : List Nat),
        codec.decomp ((payload.drop (inOff + cInOfs blocks i)).take
            (blocks[i].compressedSize)) (blocks[i].originalSize) = some out →
        ((decompBlocksLoop codec payload blocks inOff outOff buf flag).1.drop
            (outOff + cOutOfs blocks i)).take out.length = out) := by
  intro blocks
  induction blocks with
  | nil =>
      intro inOff outOff buf flag hbuf
      refine ⟨rfl, rfl, by simp [decompBlocksLoop, blocksOk], ?_⟩
      intro i hi
      exact absurd hi (by simp)
  | cons b rest ih =>
      intro inOff outOff buf flag hbuf
      have hsum : sumOrig (b :: rest) = b.originalSize + sumOrig rest := by
        simp [sumOrig]
      cases hdec : codec.decomp ((payload.drop inOff).take b.compressedSize)
          b.originalSize with
      | some out0 =>
          have hout0 : out0.length ≤ b.originalSize := codec.decomp_len _ _ _ hdec
          have hWin : outOff + out0.length ≤ buf.length := by omega
          have hWlen : (writeRange buf outOff out0).length = buf.length :=
            writeRange_length _ _ _ hWin
          have hbuf' : (outOff + b.originalSize) + sumOrig rest
              ≤ (writeRange buf outOff out0).length := by
            rw [hWlen]
            omega
          obtain ⟨ihlen, ihtake, ihflag, ihpt⟩ :=
            ih (inOff + b.compressedSize) (outOff + b.originalSize)
              (writeRange buf outOff out0) flag hbuf'
          have hloop : decompBlocksLoop codec payload (b :: rest) inOff outOff buf flag
              = decompBlocksLoop codec payload rest (inOff + b.compressedSize)
                  (outOff + b.originalSize) (writeRange buf outOff out0) flag := by
            simp only [decompBlocksLoop, hdec]
          rw [hloop]
          set r := decompBlocksLoop codec payload rest (inOff + b.compressedSize)
            (outOff + b.originalSize) (writeRange buf outOff out0) flag with hrdef
          refine ⟨by rw [ihlen, hWlen], ?_, ?_, ?_⟩
          · calc r.1.take outOff
                = (r.1.take (outOff + b.originalSize)).take outOff := by
                  rw [List.take_take]
                  congr 1
                  omega
              _ = ((writeRange buf outOff out0).take (outOff + b.originalSize)).take
                    outOff := by rw [ihtake]
              _ = (writeRange buf outOff out0).take outOff := by
                  rw [List.take_take]
                  congr 1
                  omega
              _ = buf.take outOff := writeRange_take_front buf outOff out0 (by omega)
          · rw [ihflag]
            simp [blocksOk, hdec]
          · intro i hi out hdeci
            cases i with
            | zero =>
                have hc0 : cInOfs (b :: rest) 0 = 0 := by simp [cInOfs]
                have ho0 : cOutOfs (b :: rest) 0 = 0 := by simp [cOutOfs]
                rw [hc0, Nat.add_zero] at hdeci
                simp only [List.getElem_cons_zero] at hdeci
                rw [hdec] at hdeci
                cases hdeci
                rw [ho0, Nat.add_zero]
                calc (r.1.drop outOff).take out0.length
                    = ((r.1.drop outOff).take b.originalSize).take out0.length := by
                      rw [List.take_take]
                      congr 1
                      omega
                  _ = ((r.1.take (outOff + b.originalSize)).drop outOff).take
                        out0.length := by
                      rw [List.drop_take]
                      congr 2
                      omega
                  _ = (((writeRange buf outOff out0).take
                        (outOff + b.originalSize)).drop outOff).take out0.length := by
                      rw [ihtake]
                  _ = (((writeRange buf outOff out0).drop outOff).take
                        b.originalSize).take out0.length := by
                      rw [List.drop_take]
                      congr 2
                      omega
                  _ = ((writeRange buf outOff out0).drop outOff).take out0.length := by
                      rw [List.take_take]
                      congr 1
                      omega
                  _ = (out0 ++ buf.drop (outOff + out0.length)).take out0.length := by
                      rw [writeRange_drop_front buf outOff out0 (by omega)]
                  _ = out0 := List.take_left' rfl
            | succ j =>
                have hcs : cInOfs (b :: rest) (j + 1)
                    = b.compressedSize + cInOfs rest j := by
                  simp [cInOfs, List.take_succ_cons]
                have hos : cOutOfs (b :: rest) (j + 1)
                    = b.originalSize + cOutOfs rest j := by
                  simp [cOutOfs, List.take_succ_cons]
                rw [hcs, ← Nat.add_assoc] at hdeci
                simp only [List.getElem_cons_succ] at hdeci
                have hj : j < rest.length := by
                  simp at hi
                  omega
                have hres := ihpt j hj out hdeci
                rw [hos, ← Nat.add_assoc]
                exact hres
      | none =>
          have hbuf' : (outOff + b.originalSize) + sumOrig rest ≤ buf.length := by
            omega
          obtain ⟨ihlen, ihtake, ihflag, ihpt⟩ :=
            ih (inOff + b.compressedSize) (outOff + b.originalSize) buf false hbuf'
          have hloop : decompBlocksLoop codec payload (b :: rest) inOff outOff buf flag
              = decompBlocksLoop codec payload rest (inOff + b.compressedSize)
                  (outOff + b.originalSize) buf false := by
            simp only [decompBlocksLoop, hdec]
          rw [hloop]
          set r := decompBlocksLoop codec payload rest (inOff + b.compressedSize)
            (outOff + b.originalSize) buf false with hrdef
          refine ⟨ihlen, ?_, ?_, ?_⟩
          · calc r.1.take outOff
                = (r.1.take (outOff + b.originalSize)).take outOff := by
                  rw [List.take_take]
                  congr 1
                  omega
              _ = (buf.take (outOff + b.originalSize)).take outOff := by rw [ihtake]
              _ = buf.take outOff := by
                  rw [List.take_take]
                  congr 1
                  omega
          · rw [ihflag]
            simp [blocksOk, hdec]
          · intro i hi out hdeci
            cases i with
            | zero =>
                have hc0 : cInOfs (b :: rest) 0 = 0 := by simp [cInOfs]
                rw [hc0, Nat.add_zero] at hdeci
                simp only [List.getElem_cons_zero] at hdeci
                rw [hdec] at hdeci
                cases hdeci
            | succ j =>
                have hcs : cInOfs (b :: rest) (j + 1)
                    = b.compressedSize + cInOfs rest j := by
                  simp [cInOfs, List.take_succ_cons]
                have hos : cOutOfs (b :: rest) (j + 1)
                    = b.originalSize + cOutOfs rest j := by
                  simp [cOutOfs, List.take_succ_cons]
                rw [hcs, ← Nat.add_assoc] at hdeci
                simp only [List.getElem_cons_succ] at hdeci
                have hj : j < rest.length := by
                  simp at hi
                  omega
                have hres := ihpt j hj out hdeci
                rw [hos, ← Nat.add_assoc]
                exact hres

/-- Claim C7 (decompression fail-slow, file left on disk): if any block of
a multi-block archive fails to decompress, `decompressDataParallel` still
reports failure only after every sibling block ran — each block that does
decode has its output present at its own offset in the final buffer — and
the output file, created and sized to `totalSize = Σ originalSize` before
decompression began, is flushed (`unmapFile` at line 313) and left on disk
rather than deleted. -/
theorem c7_decompress_fail_slow (codec : Codec) (a : ArchiveFile)
    (h1 : a.numBlocks ≠ 1) (h2 : a.blocks.length = a.numBlocks)
    (hfail : blocksOk codec a.payload a.blocks 0 = false) :
    ∃ buf, decompressData codec a = .failedWithFile buf ∧
      buf.length = sumOrig a.blocks ∧
      ∀ i (hi : i < a.blocks.length) (out : List Nat),
        codec.decomp ((a.payload.drop (cInOfs a.blocks i)).take
            (a.blocks[i].compressedSize)) (a.blocks[i].originalSize) = some out →
        (buf.drop (cOutOfs a.blocks i)).take out.length = out := by
  have htake : a.blocks.take a.numBlocks = a.blocks :=
    List.take_of_length_le (by omega)
  obtain ⟨hlen, htk, hflag, hpt⟩ := decompLoop_partial codec a.payload a.blocks 0 0
    (List.replicate (sumOrig a.blocks) 0) true (by simp)
  refine ⟨(decompBlocksLoop codec a.payload a.blocks 0 0
      (List.replicate (sumOrig a.blocks) 0) true).1, ?_, ?_, ?_⟩
  · simp only [decompressData, if_neg h1]
    rw [htake]
    have hfl : (decompBlocksLoop codec a.payload a.blocks 0 0
        (List.replicate (sumOrig a.blocks) 0) true).2 = false := by
      rw [hflag, hfail]
      simp
    rw [hfl]
    simp
  · rw [hlen]
    simp
  · intro i hi out hdeci
    have hres := hpt i hi out (by simpa using hdeci)
    simpa using hres

/-- Witness for C7: a two-block archive whose first block over-runs its
recorded original size (so `uncompress` fails) while the second decodes;
the failure result carries a file of the full total size with the second
block's bytes in place. -/
theorem c7_decompress_fail_slow_witness :
    ((⟨2, [⟨1, 3, 0⟩, ⟨2, 2, 1⟩], [7, 8, 9, 4, 5]⟩ : ArchiveFile).numBlocks ≠ 1 ∧
     (⟨2, [⟨1, 3, 0⟩, ⟨2, 2, 1⟩], [7, 8, 9, 4, 5]⟩ : ArchiveFile).blocks.length
       = (⟨2, [⟨1, 3, 0⟩, ⟨2, 2, 1⟩], [7, 8, 9, 4, 5]⟩ : ArchiveFile).numBlocks ∧
     blocksOk idCodec (⟨2, [⟨1, 3, 0⟩, ⟨2, 2, 1⟩], [7, 8, 9, 4, 5]⟩ : ArchiveFile).payload
       (⟨2, [⟨1, 3, 0⟩, ⟨2, 2, 1⟩], [7, 8, 9, 4, 5]⟩ : ArchiveFile).blocks 0 = false) ∧
    (∃ buf, decompressData idCodec ⟨2, [⟨1, 3, 0⟩, ⟨2, 2, 1⟩], [7, 8, 9, 4, 5]⟩
        = .failedWithFile buf ∧
      buf.length = sumOrig (⟨2, [⟨1, 3, 0⟩, ⟨2, 2, 1⟩], [7, 8, 9, 4, 5]⟩ : ArchiveFile).blocks ∧
      ∀ i (hi : i < (⟨2, [⟨1, 3, 0⟩, ⟨2, 2, 1⟩], [7, 8, 9, 4, 5]⟩ : ArchiveFile).blocks.length)
        (out : List Nat),
        idCodec.decomp
            (((⟨2, [⟨1, 3, 0⟩, ⟨2, 2, 1⟩], [7, 8, 9, 4, 5]⟩ : ArchiveFile).payload.drop
                (cInOfs (⟨2, [⟨1, 3, 0⟩, ⟨2, 2, 1⟩], [7, 8, 9, 4, 5]⟩ : ArchiveFile).blocks i)).take
              ((⟨2, [⟨1, 3, 0⟩, ⟨2, 2, 1⟩], [7, 8, 9, 4, 5]⟩ : ArchiveFile).blocks[i].compressedSize))
            ((⟨2, [⟨1, 3, 0⟩, ⟨2, 2, 1⟩], [7, 8, 9, 4, 5]⟩ : ArchiveFile).blocks[i].originalSize)
          = some out →
        (buf.drop (cOutOfs (⟨2, [⟨1, 3, 0⟩, ⟨2, 2, 1⟩], [7, 8, 9, 4, 5]⟩ : ArchiveFile).blocks i)).take
            out.length = out) :=
  ⟨⟨by decide, by decide, by decide⟩,
   c7_decompress_fail_slow idCodec ⟨2, [⟨1, 3, 0⟩, ⟨2, 2, 1⟩], [7, 8, 9, 4, 5]⟩
     (by decide) (by decide) (by decide)⟩

/-- Working-directory invariant of the walker: a successful frame restores
the working directory it started from (every `chdir(dname)` is matched by
the `chdir("..")` at line 404); a failed frame leaves the process at or
below its starting directory (the `return false` paths skip the
restoring `chdir("..")`). -/
theorem walkLoop_cwd (keep : String → Bool) (work : String → Nat → Bool) :
    ∀ (es : List FsEntry) (files : List (String × Nat)) (cwd : List String),
      ((walkLoop keep work es files cwd).1 = true →
        (walkLoop keep work es files cwd).2.2 = cwd) ∧
      ((walkLoop keep work es files cwd).1 = false →
        ∃ ext, (walkLoop keep work es files cwd).2.2 = cwd ++ ext) := by
  intro es files cwd
  induction es, files, cwd using walkLoop.induct keep work with
  | case1 files cwd =>
      constructor
      · intro
        simp [walkLoop]
      · intro
        exact ⟨[], by simp [walkLoop]⟩
  | case2 n s rest files cwd ih =>
      constructor
      · intro hs
        simp only [walkLoop] at hs ⊢
        exact ih.1 hs
      · intro hf
        simp only [walkLoop] at hf ⊢
        exact ih.2 hf
  | case3 nm sub rest files cwd r hr1 ih1 ih2 =>
      have hs1 : (walkLoop keep work sub [] (cwd ++ [nm])).1 = true := hr1
      have ih2' :
          ((walkLoop keep work rest files
              ((walkLoop keep work sub [] (cwd ++ [nm])).2.2.dropLast)).1 = true →
            (walkLoop keep work rest files
              ((walkLoop keep work sub [] (cwd ++ [nm])).2.2.dropLast)).2.2
              = (walkLoop keep work sub [] (cwd ++ [nm])).2.2.dropLast) ∧
          ((walkLoop keep work rest files
              ((walkLoop keep work sub [] (cwd ++ [nm])).2.2.dropLast)).1 = false →
            ∃ ext, (walkLoop keep work rest files
              ((walkLoop keep work sub [] (cwd ++ [nm])).2.2.dropLast)).2.2
              = (walkLoop keep work sub [] (cwd ++ [nm])).2.2.dropLast ++ ext) := ih2
      have hrest : (walkLoop keep work sub [] (cwd ++ [nm])).2.2 = cwd ++ [nm] :=
        ih1.1 hs1
      rw [hrest, List.dropLast_concat] at ih2'
      have hred : walkLoop keep work (FsEntry.dir nm sub :: rest) files cwd
          = ((walkLoop keep work rest files cwd).1,
             (walkLoop keep work sub [] (cwd ++ [nm])).2.1
               ++ (walkLoop keep work rest files cwd).2.1,
             (walkLoop keep work rest files cwd).2.2) := by
        simp [walkLoop, hs1, hrest]
      rw [hred]
      exact ⟨fun hs => ih2'.1 hs, fun hf => ih2'.2 hf⟩
  | case4 nm sub rest files cwd r hr1 ih1 =>
      have hs1 : (walkLoop keep work sub [] (cwd ++ [nm])).1 = false := by
        cases h : (walkLoop keep work sub [] (cwd ++ [nm])).1
        · rfl
        · exact absurd (show r.1 = true from h) hr1
      have hred : walkLoop keep work (FsEntry.dir nm sub :: rest) files cwd
          = (false, (walkLoop keep work sub [] (cwd ++ [nm])).2.1,
             (walkLoop keep work sub [] (cwd ++ [nm])).2.2) := by
        simp [walkLoop, hs1]
      rw [hred]
      constructor
      · intro hs
        simp at hs
      · intro hf
        obtain ⟨ext, hext⟩ := ih1.2 hs1
        exact ⟨[nm] ++ ext, by rw [hext, List.append_assoc]⟩

/-- Claim C8 (traversal failure propagation): while walking a directory
whose listing is `pre ++ [dir nm sub] ++ post`, if the subdirectories seen
so far succeeded and the recursive walk of `sub` fails, the parent frame
returns `false` immediately (src/utilitypar.hpp line 410): nothing from
`post` is examined, and the parent's collected file list is never handed
to the File Dispatcher — the dispatch trace consists solely of what the
earlier sibling subtrees and the failing subtree dispatched. -/
theorem c8_subdir_failure_aborts (keep : String → Bool) (work : String → Nat → Bool) :
    ∀ (pre : List FsEntry) (nm : String) (sub post : List FsEntry)
      (files : List (String × Nat)) (cwd : List String),
      (∀ nm2 sub2, FsEntry.dir nm2 sub2 ∈ pre →
        (walkLoop keep work sub2 [] (cwd ++ [nm2])).1 = true) →
      (walkLoop keep work sub [] (cwd ++ [nm])).1 = false →
      walkLoop keep work (pre ++ FsEntry.dir nm sub :: post) files cwd
        = (false,
           dirTraces keep work cwd pre
             ++ (walkLoop keep work sub [] (cwd ++ [nm])).2.1,
           (walkLoop keep work sub [] (cwd ++ [nm])).2.2) := by
  intro pre
  induction pre with
  | nil =>
      intro nm sub post files cwd hpre hfail
      rw [List.nil_append]
      have hred : walkLoop keep work (FsEntry.dir nm sub :: post) files cwd
          = (false, (walkLoop keep work sub [] (cwd ++ [nm])).2.1,
             (walkLoop keep work sub [] (cwd ++ [nm])).2.2) := by
        simp [walkLoop, hfail]
      rw [hred]
      simp [dirTraces]
  | cons e rest ih =>
      intro nm sub post files cwd hpre hfail
      cases e with
      | file n s =>
          rw [List.cons_append]
          have hred : walkLoop keep work
                (FsEntry.file n s :: (rest ++ FsEntry.dir nm sub :: post)) files cwd
              = walkLoop keep work (rest ++ FsEntry.dir nm sub :: post)
                  (if keep n then files ++ [(n, s)] else files) cwd := by
            simp [walkLoop]
          rw [hred, ih nm sub post _ cwd
            (fun nm2 sub2 h => hpre nm2 sub2 (List.mem_cons_of_mem _ h)) hfail]
          simp [dirTraces]
      | dir nm2 sub2 =>
          have hsub2 : (walkLoop keep work sub2 [] (cwd ++ [nm2])).1 = true :=
            hpre nm2 sub2 (List.mem_cons_self _ _)
          have hrest2 : (walkLoop keep work sub2 [] (cwd ++ [nm2])).2.2
              = cwd ++ [nm2] :=
            (walkLoop_cwd keep work sub2 [] (cwd ++ [nm2])).1 hsub2
          rw [List.cons_append]
          have hred : walkLoop keep work
                (FsEntry.dir nm2 sub2 :: (rest ++ FsEntry.dir nm sub :: post))
                files cwd
              = ((walkLoop keep work (rest ++ FsEntry.dir nm sub :: post) files cwd).1,
                 (walkLoop keep work sub2 [] (cwd ++ [nm2])).2.1
                   ++ (walkLoop keep work (rest ++ FsEntry.dir nm sub :: post)
                        files cwd).2.1,
                 (walkLoop keep work (rest ++ FsEntry.dir nm sub :: post)
                   files cwd).2.2) := by
            simp [walkLoop, hsub2, hrest2]
          rw [hred, ih nm sub post files cwd
            (fun nm3 sub3 h => hpre nm3 sub3 (List.mem_cons_of_mem _ h)) hfail]
          simp [dirTraces, List.append_assoc]

/-- Witness for C8: a parent directory listing `[file a, dir d [file x]]`
with a dispatcher that always fails: the walk of `d` fails, the parent
returns failure, and only `x` (dispatched inside `d`) ever reaches the
dispatcher — the parent's own file `a` does not. -/
theorem c8_subdir_failure_aborts_witness :
    ((∀ nm2 sub2, FsEntry.dir nm2 sub2 ∈ [FsEntry.file "a" 1] →
        (walkLoop (fun _ => true) (fun _ _ => false) sub2 []
          (([] : List String) ++ [nm2])).1 = true) ∧
     (walkLoop (fun _ => true) (fun _ _ => false) [FsEntry.file "x" 1] []
        (([] : List String) ++ ["d"])).1 = false) ∧
    walkLoop (fun _ => true) (fun _ _ => false)
        ([FsEntry.file "a" 1] ++ FsEntry.dir "d" [FsEntry.file "x" 1] :: []) [] []
      = (false,
         dirTraces (fun _ => true) (fun _ _ => false) [] [FsEntry.file "a" 1]
           ++ (walkLoop (fun _ => true) (fun _ _ => false) [FsEntry.file "x" 1] []
                (([] : List String) ++ ["d"])).2.1,
         (walkLoop (fun _ => true) (fun _ _ => false) [FsEntry.file "x" 1] []
           (([] : List String) ++ ["d"])).2.2) :=
  ⟨⟨by
      intro nm2 sub2 h
      simp at h,
    by simp [walkLoop]⟩,
   c8_subdir_failure_aborts (fun _ => true) (fun _ _ => false)
     [FsEntry.file "a" 1] "d" [FsEntry.file "x" 1] [] [] []
     (by
       intro nm2 sub2 h
       simp at h)
     (by simp [walkLoop])⟩

/-- Claim C9 (working directory left inside a failed subtree): when the
recursive walk of a directory input fails, `walkDirParallel` returns
`false` without the restoring `chdir("..")` (executed only on success,
src/utilitypar.hpp lines 402-408), so the process working directory stays
at or below the failed directory; `main`'s loop (src/minizparallel.cpp
lines 18-26) then resolves every subsequent relative input against that
directory instead of the original one. -/
theorem c9_failed_walk_leaves_cwd (keep : String → Bool) (work : String → Nat → Bool)
    (nm : String) (es : List FsEntry) (cwd : List String)
    (rest : List (String × List FsEntry))
    (hfail : (walkDirP keep work nm es cwd).1 = false) :
    (∃ ext, (walkDirP keep work nm es cwd).2.2 = (cwd ++ [nm]) ++ ext) ∧
    mainLoop keep work ((nm, es) :: rest) cwd
      = (false, (mainLoop keep work rest ((walkDirP keep work nm es cwd).2.2)).2) := by
  constructor
  · exact (walkLoop_cwd keep work es [] (cwd ++ [nm])).2 hfail
  · have hred : mainLoop keep work ((nm, es) :: rest) cwd
        = ((walkDirP keep work nm es cwd).1
            && (mainLoop keep work rest ((walkDirP keep work nm es cwd).2.2)).1,
           (mainLoop keep work rest ((walkDirP keep work nm es cwd).2.2)).2) := by
      simp [mainLoop]
    rw [hred, hfail]
    simp

/-- Witness for C9: a failed walk of directory `d` leaves the process
inside `d`, and the next input `e` is processed from there. -/
theorem c9_failed_walk_leaves_cwd_witness :
    (walkDirP (fun _ => true) (fun _ _ => false) "d" [FsEntry.file "x" 1] []).1
        = false ∧
    ((∃ ext, (walkDirP (fun _ => true) (fun _ _ => false) "d"
        [FsEntry.file "x" 1] []).2.2 = (([] : List String) ++ ["d"]) ++ ext) ∧
     mainLoop (fun _ => true) (fun _ _ => false)
        (("d", [FsEntry.file "x" 1]) :: [("e", ([] : List FsEntry))]) []
      = (false, (mainLoop (fun _ => true) (fun _ _ => false)
          [("e", ([] : List FsEntry))]
          ((walkDirP (fun _ => true) (fun _ _ => false) "d"
            [FsEntry.file "x" 1] []).2.2)).2)) :=
  ⟨by simp [walkDirP, walkLoop],
   c9_failed_walk_leaves_cwd (fun _ => true) (fun _ _ => false) "d"
     [FsEntry.file "x" 1] [] [("e", ([] : List FsEntry))]
     (by simp [walkDirP, walkLoop])⟩
